import Mathlib

/-!
Shallow embedding of the Invest-Tracker ledger-to-state derivation core
(the pure functions of the dashboard utilities module: `calculateHoldings`,
`calculatePortfolioHistory`, `calculateFundingStats`, `calculateMonthlyReturns`,
`calculateMaxDrawdown`), translated from the TypeScript source.

Numeric conventions of the embedding:
* Transaction fields hold exact rationals (the ledger is user-entered data).
* The holdings accumulator uses `JsNum`, rationals extended with the IEEE
  special values `NaN` and signed infinity, because `calculateHoldings`
  performs an unguarded division (`avgCost = totalCost / shares`) whose
  divide-by-zero behaviour is observable.  Finite arithmetic is exact.
* The valuation-timeline builder and the analytics over it never divide by
  zero on finite inputs, so they are embedded over plain rationals.
-/

/-- Model of a JavaScript `number` for the holdings accumulator: an exact
rational, `NaN`, or a signed infinity (`inf true` is `-Infinity`).  Exact
rationals stand in for finite doubles; rounding is not modelled. -/
inductive JsNum where
  | nan : JsNum
  | inf : Bool → JsNum
  | fin : ℚ → JsNum
deriving DecidableEq

/-- IEEE negation. -/
def JsNum.neg : JsNum → JsNum
  | nan => nan
  | inf s => inf (!s)
  | fin q => fin (-q)

/-- IEEE addition (exact in the finite case). -/
def JsNum.add : JsNum → JsNum → JsNum
  | nan, _ => nan
  | _, nan => nan
  | inf s, inf t => if s = t then inf s else nan
  | inf s, fin _ => inf s
  | fin _, inf t => inf t
  | fin p, fin q => fin (p + q)

/-- IEEE subtraction. -/
def JsNum.sub (a b : JsNum) : JsNum := a.add b.neg

/-- IEEE multiplication (`±∞ × 0 = NaN`). -/
def JsNum.mul : JsNum → JsNum → JsNum
  | nan, _ => nan
  | _, nan => nan
  | inf s, inf t => inf (xor s t)
  | inf s, fin q => if q = 0 then nan else inf (xor s (decide (q < 0)))
  | fin p, inf t => if p = 0 then nan else inf (xor (decide (p < 0)) t)
  | fin p, fin q => fin (p * q)

/-- IEEE division: `0/0 = NaN`, `q/0 = ±Infinity` for `q ≠ 0`,
`±∞/±∞ = NaN`. -/
def JsNum.div : JsNum → JsNum → JsNum
  | nan, _ => nan
  | _, nan => nan
  | inf _, inf _ => nan
  | inf s, fin q => inf (xor s (decide (q < 0)))
  | fin _, inf _ => fin 0
  | fin p, fin q =>
      if q = 0 then (if p = 0 then nan else inf (decide (p < 0))) else fin (p / q)

/-- The JavaScript `<` comparison: any comparison with `NaN` is `false`. -/
def JsNum.ltb : JsNum → JsNum → Bool
  | nan, _ => false
  | _, nan => false
  | inf s, inf t => s && !t
  | inf s, fin _ => s
  | fin _, inf t => !t
  | fin p, fin q => decide (p < q)

/-- Transaction kinds, from the `TransactionType` enum. -/
inductive TransactionType where
  | BUY | SELL | DEPOSIT | WITHDRAW | DIVIDEND | SPLIT
deriving DecidableEq

/-- Asset categories, from the `AssetClass` enum. -/
inductive AssetClass where
  | STOCK | CRYPTO | FUND | ETF | BOND | REAL_ESTATE | GOLD | CASH
deriving DecidableEq

/-- A calendar date, standing in for the source's ISO date strings.  The
source compares dates through `new Date(s).getTime()`; for calendar dates
that order is the lexicographic order on (year, month, day). -/
structure JDate where
  y : ℕ
  m : ℕ
  d : ℕ
deriving DecidableEq

/-- Strict date order (the order induced by `getTime()` on calendar dates). -/
def dateLt (a b : JDate) : Prop :=
  a.y < b.y ∨ (a.y = b.y ∧ (a.m < b.m ∨ (a.m = b.m ∧ a.d < b.d)))

instance (a b : JDate) : Decidable (dateLt a b) := by
  unfold dateLt; exact inferInstance

/-- The `Transaction` record.  Optional fields model the optional fields of
the TypeScript interface; the source reads them with `x || default`. -/
structure Transaction where
  id : String
  date : JDate
  type : TransactionType
  symbol : Option String := none
  name : Option String := none
  assetClass : Option AssetClass := none
  sector : Option String := none
  shares : Option ℚ := none
  price : Option ℚ := none
  fee : Option ℚ := none
  exchangeRate : Option ℚ := none
  notes : Option String := none
deriving DecidableEq

/-- The `Holding` record (used both as the per-symbol accumulator during
replay and as the output row). -/
structure Holding where
  symbol : String
  name : String
  assetClass : AssetClass
  sector : String
  shares : JsNum
  avgCost : JsNum
  totalCost : JsNum
  currentPrice : JsNum
  marketValue : JsNum
  unrealizedPL : JsNum
  unrealizedPLPercent : JsNum
  realizedPL : JsNum
  totalDividends : JsNum
  totalReturn : JsNum
  targetAllocation : JsNum
deriving DecidableEq

/-- Stable insertion (by date) used to model the source's stable
`Array.prototype.sort` with comparator `dateA - dateB`: a new element goes
after every already-sorted element whose date is strictly smaller, and
before the first element whose date is not smaller. -/
def insertD (t : Transaction) : List Transaction → List Transaction
  | [] => [t]
  | u :: l => if dateLt u.date t.date then u :: insertD t l else t :: u :: l

/-- Stable sort of the ledger ascending by date (ties keep insertion
order), modelling `[...transactions].sort((a, b) => dateA - dateB)`. -/
def sortByDate : List Transaction → List Transaction
  | [] => []
  | t :: l => insertD t (sortByDate l)

/-- The clamp threshold `0.000001` of the sell branch. -/
def epsQ : ℚ := 1 / 1000000

/-- The fresh accumulator created the first time a symbol is seen
(`holdingsMap[tx.symbol] = {...}` in `calculateHoldings`).  The `||`
fallbacks of the source are falsy-tests, so an empty-string `name`/`sector`
also falls back. -/
def freshHolding (prices : String → ℚ) (tx : Transaction) (s : String) : Holding :=
  { symbol := s
    name := match tx.name with
      | some n => if n = "" then s else n
      | none => s
    assetClass := tx.assetClass.getD AssetClass.STOCK
    sector := match tx.sector with
      | some c => if c = "" then "General" else c
      | none => "General"
    shares := JsNum.fin 0
    avgCost := JsNum.fin 0
    totalCost := JsNum.fin 0
    currentPrice := JsNum.fin (prices s)
    marketValue := JsNum.fin 0
    unrealizedPL := JsNum.fin 0
    unrealizedPLPercent := JsNum.fin 0
    realizedPL := JsNum.fin 0
    totalDividends := JsNum.fin 0
    totalReturn := JsNum.fin 0
    targetAllocation := JsNum.fin 0 }

/-- The per-transaction mutation of the symbol's accumulator: the
`if/else if` chain on `tx.type` inside the replay loop of
`calculateHoldings`. -/
def applyTx (h : Holding) (tx : Transaction) : Holding :=
  let price := tx.price.getD 0
  let sh := tx.shares.getD 0
  let fee := tx.fee.getD 0
  if tx.type = TransactionType.BUY then
    let totalCost := h.totalCost.add (JsNum.fin (price * sh + fee))
    let shares := h.shares.add (JsNum.fin sh)
    { h with totalCost := totalCost, shares := shares, avgCost := totalCost.div shares }
  else if tx.type = TransactionType.SELL then
    let proceeds := JsNum.fin (price * sh - fee)
    let costBasis := h.avgCost.mul (JsNum.fin sh)
    let realized := h.realizedPL.add (proceeds.sub costBasis)
    let shares := h.shares.sub (JsNum.fin sh)
    let totalCost := h.totalCost.sub costBasis
    if shares.ltb (JsNum.fin epsQ) then
      { h with realizedPL := realized, shares := JsNum.fin 0, totalCost := JsNum.fin 0 }
    else
      { h with realizedPL := realized, shares := shares, totalCost := totalCost }
  else if tx.type = TransactionType.DIVIDEND then
    { h with totalDividends := h.totalDividends.add (JsNum.fin (price - fee)) }
  else if tx.type = TransactionType.SPLIT then
    let r := sh
    if 0 < r then
      { h with shares := h.shares.mul (JsNum.fin r), avgCost := h.avgCost.div (JsNum.fin r) }
    else h
  else h

/-- One iteration of the replay loop of `calculateHoldings`: skip records
without a (truthy) symbol, create the accumulator on first sight, then
apply the transaction to the symbol's accumulator.  The map keeps JS
object-key insertion order, so it is an association list in insertion
order. -/
def holdingsStep (prices : String → ℚ) (m : List Holding) (tx : Transaction) :
    List Holding :=
  match tx.symbol with
  | none => m
  | some s =>
    if s = "" then m
    else
      let m1 := if m.any (fun h => h.symbol == s) then m else m ++ [freshHolding prices tx s]
      m1.map (fun h => if h.symbol = s then applyTx h tx else h)

/-- The replay phase of `calculateHoldings` over an (already sorted)
transaction list. -/
def replayHoldings (prices : String → ℚ) (txs : List Transaction) : List Holding :=
  txs.foldl (holdingsStep prices) []

/-- The post-replay per-holding finalisation of `calculateHoldings`
(current price override, market value, unrealized P/L and percent, total
return, target allocation). -/
def finalizeHolding (prices targets : String → ℚ) (h : Holding) : Holding :=
  let cp := if prices h.symbol ≠ 0 then JsNum.fin (prices h.symbol) else h.currentPrice
  let marketValue := h.shares.mul cp
  let unrealized := marketValue.sub h.totalCost
  { h with
    currentPrice := cp
    marketValue := marketValue
    unrealizedPL := unrealized
    unrealizedPLPercent :=
      if (JsNum.fin 0).ltb h.totalCost then (unrealized.div h.totalCost).mul (JsNum.fin 100)
      else JsNum.fin 0
    totalReturn := (unrealized.add h.realizedPL).add h.totalDividends
    targetAllocation := JsNum.fin (targets h.symbol) }

/-- The output filter of `calculateHoldings`:
`h.shares > 0 || h.realizedPL !== 0 || h.totalDividends !== 0`. -/
def keepHolding (h : Holding) : Bool :=
  (JsNum.fin 0).ltb h.shares || decide (h.realizedPL ≠ JsNum.fin 0) ||
    decide (h.totalDividends ≠ JsNum.fin 0)

/-- `calculateHoldings`: sort the ledger by date, replay it into per-symbol
accumulators, finalise each against current prices and targets, and keep
holdings with shares, realized P/L, or dividends. -/
def calculateHoldings (txs : List Transaction) (prices targets : String → ℚ) :
    List Holding :=
  ((replayHoldings prices (sortByDate txs)).map (finalizeHolding prices targets)).filter
    keepHolding

/-- A chart date: either a transaction's calendar date or the literal
`'Now'` marker of the trailing synthetic point. -/
inductive CDate where
  | lit : JDate → CDate
  | now : CDate
deriving DecidableEq

/-- The `ChartDataPoint` record of the valuation timeline. -/
structure ChartDataPoint where
  date : CDate
  invested : ℚ
  value : ℚ
deriving DecidableEq

/-- The per-symbol running state of the timeline replay
(`{ shares, lastPrice }`). -/
structure HState where
  shares : ℚ
  lastPrice : ℚ
deriving DecidableEq

/-- The running state of `calculatePortfolioHistory`: net invested capital,
cash, and the per-symbol map (an association list in insertion order). -/
structure PHState where
  invested : ℚ
  cash : ℚ
  holdings : List (String × HState)
deriving DecidableEq

/-- Market value of the tracked positions at last-transaction prices
(`Σ shares × lastPrice`). -/
def stockValue (hs : List (String × HState)) : ℚ :=
  (hs.map (fun p => p.2.shares * p.2.lastPrice)).sum

/-- One iteration of the replay loop of `calculatePortfolioHistory`:
invested/cash updates, then trade-and-split updates of the symbol map. -/
def historyStep (st : PHState) (tx : Transaction) : PHState :=
  let amount := tx.price.getD 0
  let sh := tx.shares.getD 0
  let fee := tx.fee.getD 0
  let invested :=
    if tx.type = TransactionType.DEPOSIT then st.invested + amount
    else if tx.type = TransactionType.WITHDRAW then st.invested - amount
    else st.invested
  let cash :=
    if tx.type = TransactionType.DEPOSIT then st.cash + amount
    else if tx.type = TransactionType.WITHDRAW then st.cash - amount
    else if tx.type = TransactionType.DIVIDEND then st.cash + amount
    else st.cash
  match tx.symbol with
  | none => { invested := invested, cash := cash, holdings := st.holdings }
  | some s =>
    if s = "" then { invested := invested, cash := cash, holdings := st.holdings }
    else
      let hs0 := if st.holdings.any (fun p => p.1 == s) then st.holdings
        else st.holdings ++ [(s, ⟨0, 0⟩)]
      let upd : HState → HState := fun h =>
        let lastPrice :=
          if 0 < amount ∧ (tx.type = TransactionType.BUY ∨ tx.type = TransactionType.SELL)
          then amount else h.lastPrice
        if tx.type = TransactionType.BUY then ⟨h.shares + sh, lastPrice⟩
        else if tx.type = TransactionType.SELL then ⟨h.shares - sh, lastPrice⟩
        else if tx.type = TransactionType.SPLIT then
          let r := if sh = 0 then 1 else sh
          ⟨h.shares * r, if 0 < lastPrice then lastPrice / r else lastPrice⟩
        else ⟨h.shares, lastPrice⟩
      let cash1 :=
        if tx.type = TransactionType.BUY then cash - (amount * sh + fee)
        else if tx.type = TransactionType.SELL then cash + (amount * sh - fee)
        else cash
      { invested := invested
        cash := cash1
        holdings := hs0.map (fun p => if p.1 = s then (p.1, upd p.2) else p) }

/-- Replay a transaction list, emitting one `ChartDataPoint` per
transaction (the loop body of `calculatePortfolioHistory`). -/
def runHistory (st : PHState) : List Transaction → PHState × List ChartDataPoint
  | [] => (st, [])
  | tx :: rest =>
    let st1 := historyStep st tx
    let point : ChartDataPoint :=
      ⟨CDate.lit tx.date, st1.invested, st1.cash + stockValue st1.holdings⟩
    let tail := runHistory st1 rest
    (tail.1, point :: tail.2)

/-- Value of the tracked positions at current market prices, falling back
to the last transaction price when the supplied price is absent (0 under
the source's `currentPrices[symbol] || h.lastPrice` falsy test). -/
def stockValueNow (prices : String → ℚ) (hs : List (String × HState)) : ℚ :=
  (hs.map (fun p => p.2.shares * (if prices p.1 = 0 then p.2.lastPrice else prices p.1))).sum

/-- The trailing synthetic point (`date: 'Now'`) of the timeline. -/
def nowPoint (prices : String → ℚ) (st : PHState) : ChartDataPoint :=
  ⟨CDate.now, st.invested, st.cash + stockValueNow prices st.holdings⟩

/-- `calculatePortfolioHistory`: empty ledger gives an empty timeline;
otherwise sort by date, emit one point per transaction, and append the
synthetic `'Now'` point valued at current prices. -/
def calculatePortfolioHistory (txs : List Transaction) (prices : String → ℚ) :
    List ChartDataPoint :=
  if txs = [] then []
  else
    let run := runHistory ⟨0, 0, []⟩ (sortByDate txs)
    run.2 ++ [nowPoint prices run.1]

/-- The result record of `calculateFundingStats`. -/
structure FundingStats where
  netFundingUSD : ℚ
  netFundingLocal : ℚ
  avgFxCost : ℚ
  fundingTxs : List Transaction
deriving DecidableEq

/-- The four running accumulators of `calculateFundingStats`. -/
structure FundingAcc where
  netFundingUSD : ℚ
  netFundingLocal : ℚ
  totalDepositsUSD : ℚ
  totalDepositsLocal : ℚ
deriving DecidableEq

/-- One iteration of the `calculateFundingStats` loop. -/
def fundingStep (acc : FundingAcc) (tx : Transaction) : FundingAcc :=
  let amount := tx.price.getD 0
  let rate := match tx.exchangeRate with
    | some r => if r = 0 then 1 else r
    | none => 1
  if tx.type = TransactionType.DEPOSIT then
    ⟨acc.netFundingUSD + amount, acc.netFundingLocal + amount * rate,
      acc.totalDepositsUSD + amount, acc.totalDepositsLocal + amount * rate⟩
  else
    ⟨acc.netFundingUSD - amount, acc.netFundingLocal - amount * rate,
      acc.totalDepositsUSD, acc.totalDepositsLocal⟩

/-- `calculateFundingStats`: fold the DEPOSIT/WITHDRAW records into net
funding (base and local currency) and the guarded weighted-average FX
cost. -/
def calculateFundingStats (txs : List Transaction) : FundingStats :=
  let fundingTxs := txs.filter (fun t =>
    t.type == TransactionType.DEPOSIT || t.type == TransactionType.WITHDRAW)
  let acc := fundingTxs.foldl fundingStep ⟨0, 0, 0, 0⟩
  { netFundingUSD := acc.netFundingUSD
    netFundingLocal := acc.netFundingLocal
    avgFxCost :=
      if 0 < acc.totalDepositsUSD then acc.totalDepositsLocal / acc.totalDepositsUSD else 0
    fundingTxs := fundingTxs }

/-- One iteration of `calculateMaxDrawdown`: raise the running peak, then
record the drawdown when the peak is positive.  The initial
`peak = -Infinity` of the source is modelled by `none`, so the first point
always becomes the peak. -/
def ddStep (st : Option ℚ × ℚ) (v : ℚ) : Option ℚ × ℚ :=
  let peak : Option ℚ :=
    match st.1 with
    | none => some v
    | some p => if p < v then some v else some p
  match peak with
  | none => (peak, st.2)
  | some p =>
    if 0 < p then
      let dd := (p - v) / p
      (peak, if st.2 < dd then dd else st.2)
    else (peak, st.2)

/-- `calculateMaxDrawdown`: single forward pass tracking the running peak
value; reports the maximum of `(peak - value)/peak` as a percentage. -/
def calculateMaxDrawdown (chartData : List ChartDataPoint) : ℚ :=
  ((chartData.map (fun p => p.value)).foldl ddStep (none, 0)).2 * 100

/-- Resolve a chart date: the `'Now'` marker means the current date
(`new Date()`), passed to the embedding as the explicit `today`
parameter. -/
def resolveC (today : JDate) : CDate → JDate
  | CDate.lit d => d
  | CDate.now => today

/-- Stable insertion of a chart point by resolved date (the source sorts
chart data with the same stable comparator pattern as the ledger). -/
def insertP (today : JDate) (p : ChartDataPoint) :
    List ChartDataPoint → List ChartDataPoint
  | [] => [p]
  | q :: l =>
    if dateLt (resolveC today q.date) (resolveC today p.date) then q :: insertP today p l
    else p :: q :: l

/-- Stable sort of chart data ascending by resolved date. -/
def sortP (today : JDate) : List ChartDataPoint → List ChartDataPoint
  | [] => []
  | p :: l => insertP today p (sortP today l)

/-- Absolute month number of a date (`12 × year + (month − 1)`), standing
in for the source's `YYYY-MM` label `getYearMonth`; for years in range the
label is a strictly monotone injective image of this index. -/
def monthIdx (d : JDate) : ℕ := 12 * d.y + (d.m - 1)

/-- First day of the month with absolute month number `k`
(`new Date(year, month, 1)` as produced by the source's month cursor). -/
def monthStart (k : ℕ) : JDate := ⟨k / 12, k % 12 + 1, 1⟩

/-- A calendar date as produced by a well-formed ISO string: month in
`1..12`, day at least 1. -/
def validJD (d : JDate) : Prop := 1 ≤ d.m ∧ d.m ≤ 12 ∧ 1 ≤ d.d

instance (d : JDate) : Decidable (validJD d) := by
  unfold validJD; exact inferInstance

/-- The `MonthlyReturnData` record; `yearMonth` carries the absolute month
number standing in for the `YYYY-MM` string. -/
structure MonthlyReturnData where
  yearMonth : ℕ
  value : ℚ
  pnl : ℚ
deriving DecidableEq

/-- The month-cursor loop of `calculateMonthlyReturns`: it walks one
calendar month at a time (`fuel` months remain), consumes the sorted
points that fall before the start of the next month (the inner `while`
with the shared `dataIdx` cursor), and snapshots the last consumed state,
carrying the previous one forward for empty months. -/
def snapLoop (today : JDate) :
    ℕ → List ChartDataPoint → ℕ → ℚ × ℚ → List (ℕ × ℚ × ℚ)
  | 0, _, _, _ => []
  | fuel + 1, pts, k, lastState =>
    let taken := pts.takeWhile (fun p => decide (dateLt (resolveC today p.date) (monthStart (k + 1))))
    let rest := pts.dropWhile (fun p => decide (dateLt (resolveC today p.date) (monthStart (k + 1))))
    let st := match taken.getLast? with
      | some p => (p.value, p.invested)
      | none => lastState
    (k, st) :: snapLoop today fuel rest (k + 1) st

/-- The returns loop of `calculateMonthlyReturns`: Modified-Dietz return
per month over consecutive snapshots, starting from the zero state, and
skipping months whose denominator and pnl are both 0. -/
def returnsLoop : ℚ × ℚ → List (ℕ × ℚ × ℚ) → List MonthlyReturnData
  | _, [] => []
  | prev, (ym, st) :: rest =>
    let netFlow := st.2 - prev.2
    let pnl := st.1 - prev.1 - netFlow
    let denom := prev.1 + netFlow / 2
    let pct := if denom ≠ 0 then pnl / denom * 100 else 0
    (if denom ≠ 0 ∨ pnl ≠ 0 then [⟨ym, pct, pnl⟩] else []) ++ returnsLoop st rest

/-- `calculateMonthlyReturns`: sort the timeline by resolved date, build
one snapshot per calendar month from the first to the last date, then
compute the per-month Modified-Dietz returns. -/
def calculateMonthlyReturns (today : JDate) (chartData : List ChartDataPoint) :
    List MonthlyReturnData :=
  match sortP today chartData with
  | [] => []
  | p :: rest =>
    let sorted := p :: rest
    let a := monthIdx (resolveC today p.date)
    let b := monthIdx (resolveC today (sorted.getLast (List.cons_ne_nil p rest)).date)
    returnsLoop (0, 0) (snapLoop today (b + 1 - a) sorted a (0, 0))

/-- Spec-side description (follows the claim's words, for comparison with
the source embedding): the carried-forward `{value, invested}` snapshot of
a month is the last sorted point dated in that month or earlier, or the
zero state when there is none. -/
def stateAsOfSpec (today : JDate) (sorted : List ChartDataPoint) (k : ℕ) : ℚ × ℚ :=
  match (sorted.filter (fun p => decide (monthIdx (resolveC today p.date) ≤ k))).getLast? with
  | some p => (p.value, p.invested)
  | none => (0, 0)

/-- Spec-side description of one month's Modified-Dietz entry, from the
claim's words: `netFlow = invested − prevInvested`,
`pnl = value − prevValue − netFlow`, `denominator = prevValue + netFlow/2`,
return `pnl/denominator × 100` (0 when the denominator is 0), and no entry
when denominator and pnl are both exactly 0. -/
def dietzSpec (prev : ℚ × ℚ) (cur : ℕ × ℚ × ℚ) : Option MonthlyReturnData :=
  let netFlow := cur.2.2 - prev.2
  let pnl := cur.2.1 - prev.1 - netFlow
  let denom := prev.1 + netFlow / 2
  if denom ≠ 0 ∨ pnl ≠ 0 then
    some ⟨cur.1, if denom ≠ 0 then pnl / denom * 100 else 0, pnl⟩
  else none

/-- Spec-side description of `calculateMonthlyReturns`, from the claim's
words: one snapshot per calendar month spanning the first to the last
date, each month's state being the last known point at or before it, and
per-month Modified-Dietz entries over consecutive snapshots. -/
def monthlyReturnsSpec (today : JDate) (chartData : List ChartDataPoint) :
    List MonthlyReturnData :=
  match sortP today chartData with
  | [] => []
  | p :: rest =>
    let sorted := p :: rest
    let a := monthIdx (resolveC today p.date)
    let b := monthIdx (resolveC today (sorted.getLast (List.cons_ne_nil p rest)).date)
    let snaps := (List.range' a (b + 1 - a)).map (fun k => (k, stateAsOfSpec today sorted k))
    (List.zip ((0, 0) :: snaps.map Prod.snd) snaps).filterMap (fun pr => dietzSpec pr.1 pr.2)

/-! ### Order lemmas for dates and the stable sorts -/

theorem dateLt_asymm {a b : JDate} (h : dateLt a b) : ¬ dateLt b a := by
  unfold dateLt at *; omega

theorem dateLt_negtrans {a b c : JDate} (h1 : ¬ dateLt b a) (h2 : ¬ dateLt c b) :
    ¬ dateLt c a := by
  unfold dateLt at *; omega

theorem insertD_perm (t : Transaction) (l : List Transaction) :
    List.Perm (insertD t l) (t :: l) := by
  induction l with
  | nil => simp [insertD]
  | cons u l ih =>
    simp only [insertD]
    split
    · exact ((ih.cons u).trans (List.Perm.swap t u l))
    · exact List.Perm.refl _

theorem sortByDate_perm (l : List Transaction) : List.Perm (sortByDate l) l := by
  induction l with
  | nil => simp [sortByDate]
  | cons t l ih => exact (insertD_perm t (sortByDate l)).trans (ih.cons t)

/-- The no-inversion ordering maintained by the stable sort. -/
def dleT (a b : Transaction) : Prop := ¬ dateLt b.date a.date

theorem insertD_pairwise (t : Transaction) {l : List Transaction}
    (h : l.Pairwise dleT) : (insertD t l).Pairwise dleT := by
  induction l with
  | nil => simp [insertD, List.pairwise_cons]
  | cons u l ih =>
    rcases List.pairwise_cons.mp h with ⟨hu, hl⟩
    simp only [insertD]
    split
    case isTrue hlt =>
      refine List.pairwise_cons.mpr ⟨?_, ih hl⟩
      intro y hy
      rcases List.mem_cons.mp ((insertD_perm t l).mem_iff.mp hy) with rfl | hyl
      · exact dateLt_asymm hlt
      · exact hu y hyl
    case isFalse hnlt =>
      refine List.pairwise_cons.mpr ⟨?_, h⟩
      intro y hy
      rcases List.mem_cons.mp hy with rfl | hyl
      · exact hnlt
      · exact dateLt_negtrans hnlt (hu y hyl)

theorem sortByDate_pairwise (l : List Transaction) : (sortByDate l).Pairwise dleT := by
  induction l with
  | nil => simp [sortByDate]
  | cons t l ih => exact insertD_pairwise t ih

theorem insertD_split (t : Transaction) (l : List Transaction) :
    ∃ A B, insertD t l = A ++ t :: B ∧ l = A ++ B := by
  induction l with
  | nil => exact ⟨[], [], rfl, rfl⟩
  | cons u l ih =>
    simp only [insertD]
    split
    · rcases ih with ⟨A, B, h1, h2⟩
      exact ⟨u :: A, B, by simp [h1], by simp [h2]⟩
    · exact ⟨[], u :: l, rfl, rfl⟩

theorem insertD_mid (u t : Transaction) :
    ∀ A B : List Transaction, (A ++ t :: B).Pairwise dleT →
      ∃ A' B', insertD u (A ++ t :: B) = A' ++ t :: B' ∧ insertD u (A ++ B) = A' ++ B' := by
  intro A
  induction A with
  | nil =>
    intro B h
    simp only [List.nil_append, insertD]
    split
    case isTrue => exact ⟨[], insertD u B, rfl, rfl⟩
    case isFalse hnlt =>
      refine ⟨[u], B, rfl, ?_⟩
      cases B with
      | nil => rfl
      | cons b B' =>
        rcases List.pairwise_cons.mp h with ⟨ht, _⟩
        have hb : ¬ dateLt b.date u.date :=
          dateLt_negtrans hnlt (ht b (by simp))
        simp [insertD, hb]
  | cons a A₀ ih =>
    intro B h
    rcases List.pairwise_cons.mp h with ⟨_, htail⟩
    simp only [List.cons_append, insertD]
    split
    · rcases ih B htail with ⟨A', B', h1, h2⟩
      exact ⟨a :: A', B', by simp [h1], by simp [h2]⟩
    · exact ⟨u :: a :: A₀, B, rfl, rfl⟩

/-- Removing an element from a list and stable-sorting commute: the sorted
list with the element removed at its sorted position is the sort of the
list with the element removed. -/
theorem sortByDate_remove (t : Transaction) (pre post : List Transaction) :
    ∃ A B, sortByDate (pre ++ t :: post) = A ++ t :: B ∧
      sortByDate (pre ++ post) = A ++ B := by
  induction pre with
  | nil =>
    simp only [List.nil_append, sortByDate]
    exact insertD_split t (sortByDate post)
  | cons p pre ih =>
    rcases ih with ⟨A, B, h1, h2⟩
    have hp : (A ++ t :: B).Pairwise dleT := h1 ▸ sortByDate_pairwise _
    rcases insertD_mid p t A B hp with ⟨A', B', g1, g2⟩
    refine ⟨A', B', ?_, ?_⟩
    · show insertD p (sortByDate (pre ++ t :: post)) = A' ++ t :: B'
      rw [h1]; exact g1
    · show insertD p (sortByDate (pre ++ post)) = A' ++ B'
      rw [h2]; exact g2

/-! ### Claim C8 -/

theorem holdingsStep_skip (prices : String → ℚ) (m : List Holding)
    {tx : Transaction} (hsym : tx.symbol = none) :
    holdingsStep prices m tx = m := by
  simp [holdingsStep, hsym]

/-- Claim C8: a trade-type transaction with a missing symbol is skipped
silently by the holdings aggregation — the ledger with the record yields
the same Holding list as the ledger without it, and no error is possible
(the embedding is a total function). -/
theorem calculateHoldings_skips_missing_symbol
    (pre post : List Transaction) (tx : Transaction) (prices targets : String → ℚ)
    (_hty : tx.type = TransactionType.BUY ∨ tx.type = TransactionType.SELL ∨
      tx.type = TransactionType.DIVIDEND ∨ tx.type = TransactionType.SPLIT)
    (hsym : tx.symbol = none) :
    calculateHoldings (pre ++ tx :: post) prices targets =
      calculateHoldings (pre ++ post) prices targets := by
  rcases sortByDate_remove tx pre post with ⟨A, B, h1, h2⟩
  unfold calculateHoldings replayHoldings
  rw [h1, h2, List.foldl_append, List.foldl_append, List.foldl_cons,
    holdingsStep_skip prices _ hsym]

/-! ### Shared concrete inputs for witnesses and counterexamples -/

/-- Empty current-price map (every lookup misses). -/
def zeroPrices : String → ℚ := fun _ => 0

/-- Empty target-allocation map. -/
def zeroTargets : String → ℚ := fun _ => 0

/-- A plain buy: 10 shares of AAPL at 100 with no fee. -/
def txBuyA : Transaction :=
  { id := "b1", date := ⟨2024, 1, 1⟩, type := TransactionType.BUY,
    symbol := some "AAPL", shares := some 10, price := some 100, fee := some 0 }

/-- A dividend record with no symbol (malformed for its type). -/
def txNoSym : Transaction :=
  { id := "d1", date := ⟨2024, 1, 2⟩, type := TransactionType.DIVIDEND, price := some 5 }

theorem c8_witness :
    txNoSym.symbol = none ∧
    calculateHoldings ([txBuyA] ++ txNoSym :: []) zeroPrices zeroTargets =
      calculateHoldings ([txBuyA] ++ []) zeroPrices zeroTargets :=
  ⟨rfl, calculateHoldings_skips_missing_symbol [txBuyA] [] txNoSym zeroPrices zeroTargets
    (Or.inr (Or.inr (Or.inl rfl))) rfl⟩

/-! ### Claim C1: the BUY average-cost division is NOT guarded -/

/-- Whether a JS number is an ordinary finite value. -/
def JsNum.finite : JsNum → Bool
  | fin _ => true
  | _ => false

/-- Claim C1 (amended): `calculateHoldings` recomputes
`avgCost = totalCost / shares` on a BUY with no divide-by-zero guard, so a
BUY that leaves the accumulated share count at 0 makes `avgCost` a
non-finite value — `NaN` when the accumulated `totalCost` is 0,
`±Infinity` otherwise — never 0. -/
theorem buy_divide_by_zero_unguarded (h : Holding) (tx : Transaction)
    (hty : tx.type = TransactionType.BUY)
    (hz : (applyTx h tx).shares = JsNum.fin 0) :
    (applyTx h tx).avgCost = ((applyTx h tx).totalCost).div (JsNum.fin 0) ∧
    ((applyTx h tx).avgCost).finite = false ∧
    ((applyTx h tx).totalCost = JsNum.fin 0 → (applyTx h tx).avgCost = JsNum.nan) := by
  simp only [applyTx, hty, if_pos] at hz ⊢
  rw [hz]
  cases hT : (h.totalCost).add (JsNum.fin (tx.price.getD 0 * tx.shares.getD 0 + tx.fee.getD 0)) with
  | nan => simp [JsNum.div, JsNum.finite]
  | inf s => simp [JsNum.div, JsNum.finite]
  | fin p =>
    by_cases hp : p = 0 <;> simp [JsNum.div, JsNum.finite, hp]

/-- A BUY of zero shares with a positive fee (leaves the share count at 0
and the accumulated cost positive). -/
def c1BuyZero : Transaction :=
  { id := "c1a", date := ⟨2024, 1, 1⟩, type := TransactionType.BUY,
    symbol := some "A", shares := some 0, price := some 100, fee := some 5 }

/-- A dividend on the same symbol, keeping the holding in the output. -/
def c1Div : Transaction :=
  { id := "c1b", date := ⟨2024, 1, 2⟩, type := TransactionType.DIVIDEND,
    symbol := some "A", price := some 1 }

theorem c1_counterexample :
    (calculateHoldings [c1BuyZero, c1Div] zeroPrices zeroTargets).map Holding.avgCost =
      [JsNum.inf false] ∧ JsNum.inf false ≠ JsNum.fin 0 := by
  constructor
  · simp [calculateHoldings, replayHoldings, sortByDate, insertD, dateLt, holdingsStep,
      freshHolding, applyTx, finalizeHolding, keepHolding, JsNum.add, JsNum.div, JsNum.mul,
      JsNum.sub, JsNum.neg, JsNum.ltb, JsNum.finite, epsQ, c1BuyZero, c1Div, zeroPrices,
      zeroTargets]
  · decide

/-- The fresh accumulator the zero-share BUY acts on. -/
def c1Fresh : Holding := freshHolding zeroPrices c1BuyZero "A"

theorem c1_witness :
    c1BuyZero.type = TransactionType.BUY ∧
    (applyTx c1Fresh c1BuyZero).shares = JsNum.fin 0 ∧
    ((applyTx c1Fresh c1BuyZero).avgCost =
        ((applyTx c1Fresh c1BuyZero).totalCost).div (JsNum.fin 0) ∧
      ((applyTx c1Fresh c1BuyZero).avgCost).finite = false ∧
      ((applyTx c1Fresh c1BuyZero).totalCost = JsNum.fin 0 →
        (applyTx c1Fresh c1BuyZero).avgCost = JsNum.nan)) :=
  ⟨rfl, by simp [applyTx, c1Fresh, freshHolding, c1BuyZero, zeroPrices, JsNum.add],
    buy_divide_by_zero_unguarded c1Fresh c1BuyZero rfl
      (by simp [applyTx, c1Fresh, freshHolding, c1BuyZero, zeroPrices, JsNum.add])⟩

/-! ### Claim C4: split neutrality -/

theorem jsnum_split_product (s a : JsNum) (r : ℚ) (hr : 0 < r) :
    (s.mul (JsNum.fin r)).mul (a.div (JsNum.fin r)) = s.mul a := by
  have hr0 : r ≠ 0 := ne_of_gt hr
  have hrneg : ¬ r < 0 := not_lt.mpr hr.le
  have hdivsign : ∀ q : ℚ, (q / r < 0) = (q < 0) := by
    intro q
    by_cases hq : q < 0
    · simp [hq, div_neg_of_neg_of_pos hq hr]
    · have hnn : ¬ q / r < 0 := not_lt.mpr (div_nonneg (not_lt.mp hq) hr.le)
      simp [hq, hnn]
  have hmulsign : ∀ p : ℚ, (p * r < 0) = (p < 0) := by
    intro p
    by_cases hp : p < 0
    · simp [hp, mul_neg_of_neg_of_pos hp hr]
    · have hnn : ¬ p * r < 0 := not_lt.mpr (mul_nonneg (not_lt.mp hp) hr.le)
      simp [hp, hnn]
  cases s with
  | nan => cases a <;> simp [JsNum.mul, JsNum.div]
  | inf σ =>
    cases a with
    | nan => simp [JsNum.mul, JsNum.div, hr0, hrneg]
    | inf τ => simp [JsNum.mul, JsNum.div, hr0, hrneg]
    | fin q =>
      by_cases hq : q = 0
      · subst hq; simp [JsNum.mul, JsNum.div, hr0, hrneg]
      · have h1 : q / r ≠ 0 := div_ne_zero hq hr0
        simp [JsNum.mul, JsNum.div, hr0, hrneg, hq, h1, hdivsign]
  | fin p =>
    cases a with
    | nan => simp [JsNum.mul, JsNum.div]
    | inf τ =>
      by_cases hp : p = 0
      · subst hp; simp [JsNum.mul, JsNum.div, hr0, hrneg]
      · have h1 : p * r ≠ 0 := mul_ne_zero hp hr0
        simp [JsNum.mul, JsNum.div, hr0, hrneg, hp, h1, hmulsign]
    | fin q =>
      simp only [JsNum.mul, JsNum.div, hr0, if_false, JsNum.fin.injEq]
      field_simp
      ring

/-- Branch equation: a SPLIT with positive ratio multiplies the share
count and divides the average cost by the ratio, touching nothing else. -/
theorem applyTx_split_pos (h : Holding) (tx : Transaction)
    (hty : tx.type = TransactionType.SPLIT) (hr : 0 < tx.shares.getD 0) :
    applyTx h tx = { h with
      shares := h.shares.mul (JsNum.fin (tx.shares.getD 0)),
      avgCost := h.avgCost.div (JsNum.fin (tx.shares.getD 0)) } := by
  simp [applyTx, hty, hr]

/-- Branch equation: a SPLIT with non-positive ratio changes nothing. -/
theorem applyTx_split_nonpos (h : Holding) (tx : Transaction)
    (hty : tx.type = TransactionType.SPLIT) (hr : ¬ 0 < tx.shares.getD 0) :
    applyTx h tx = h := by
  simp [applyTx, hty, hr]

/-- Claim C4: processing a SPLIT whose ratio `r` (carried in the `shares`
field) is positive multiplies the share count by `r`, divides `avgCost`
by `r`, and leaves `totalCost` — and the product `shares × avgCost` —
unchanged; a SPLIT with ratio ≤ 0 changes nothing. -/
theorem split_neutrality (h : Holding) (tx : Transaction)
    (hty : tx.type = TransactionType.SPLIT) :
    (0 < tx.shares.getD 0 →
      (applyTx h tx).shares = h.shares.mul (JsNum.fin (tx.shares.getD 0)) ∧
      (applyTx h tx).avgCost = h.avgCost.div (JsNum.fin (tx.shares.getD 0)) ∧
      (applyTx h tx).totalCost = h.totalCost ∧
      ((applyTx h tx).shares).mul ((applyTx h tx).avgCost) = h.shares.mul h.avgCost) ∧
    (tx.shares.getD 0 ≤ 0 → applyTx h tx = h) := by
  constructor
  · intro hr
    rw [applyTx_split_pos h tx hty hr]
    exact ⟨rfl, rfl, rfl, jsnum_split_product _ _ _ hr⟩
  · intro hr
    exact applyTx_split_nonpos h tx hty (not_lt.mpr hr)

/-- The AAPL accumulator after the example buy (10 shares at 100). -/
def c4H : Holding := applyTx (freshHolding zeroPrices txBuyA "AAPL") txBuyA

/-- A 2-for-1 split on AAPL. -/
def txSplit2 : Transaction :=
  { id := "s1", date := ⟨2024, 1, 3⟩, type := TransactionType.SPLIT,
    symbol := some "AAPL", shares := some 2 }

theorem c4_witness :
    0 < txSplit2.shares.getD 0 ∧
    ((applyTx c4H txSplit2).shares = c4H.shares.mul (JsNum.fin (txSplit2.shares.getD 0)) ∧
      (applyTx c4H txSplit2).avgCost = c4H.avgCost.div (JsNum.fin (txSplit2.shares.getD 0)) ∧
      (applyTx c4H txSplit2).totalCost = c4H.totalCost ∧
      ((applyTx c4H txSplit2).shares).mul ((applyTx c4H txSplit2).avgCost) =
        c4H.shares.mul c4H.avgCost) :=
  ⟨by norm_num [txSplit2], (split_neutrality c4H txSplit2 rfl).1 (by norm_num [txSplit2])⟩

/-! ### Claim C2: drawdown bounds -/

theorem ddStep_snd_ge (st : Option ℚ × ℚ) (v : ℚ) : st.2 ≤ (ddStep st v).2 := by
  rcases st with ⟨peak, m⟩
  rcases peak with _ | p
  · have e : ddStep (none, m) v =
        if 0 < v then ((some v : Option ℚ), if m < (v - v) / v then (v - v) / v else m)
        else ((some v : Option ℚ), m) := rfl
    rw [e]
    split_ifs with h1 h2
    · exact le_of_lt h2
    · exact le_refl m
    · exact le_refl m
  · by_cases hpv : p < v
    · have e : ddStep (some p, m) v =
          if 0 < v then ((some v : Option ℚ), if m < (v - v) / v then (v - v) / v else m)
          else ((some v : Option ℚ), m) := by
        simp [ddStep, hpv]
      rw [e]
      split_ifs with h1 h2
      · exact le_of_lt h2
      · exact le_refl m
      · exact le_refl m
    · have e : ddStep (some p, m) v =
          if 0 < p then ((some p : Option ℚ), if m < (p - v) / p then (p - v) / p else m)
          else ((some p : Option ℚ), m) := by
        simp [ddStep, hpv]
      rw [e]
      split_ifs with h1 h2
      · exact le_of_lt h2
      · exact le_refl m
      · exact le_refl m

theorem ddStep_snd_le_one (st : Option ℚ × ℚ) (v : ℚ) (h1 : st.2 ≤ 1) (hv : 0 ≤ v) :
    (ddStep st v).2 ≤ 1 := by
  rcases st with ⟨peak, m⟩
  dsimp only at h1
  have hzero : ∀ w : ℚ, (w - w) / w ≤ 1 := by
    intro w; simp
  rcases peak with _ | p
  · have e : ddStep (none, m) v =
        if 0 < v then ((some v : Option ℚ), if m < (v - v) / v then (v - v) / v else m)
        else ((some v : Option ℚ), m) := rfl
    rw [e]
    split_ifs with hp hm
    · exact hzero v
    · exact h1
    · exact h1
  · by_cases hpv : p < v
    · have e : ddStep (some p, m) v =
          if 0 < v then ((some v : Option ℚ), if m < (v - v) / v then (v - v) / v else m)
          else ((some v : Option ℚ), m) := by
        simp [ddStep, hpv]
      rw [e]
      split_ifs with hp hm
      · exact hzero v
      · exact h1
      · exact h1
    · have e : ddStep (some p, m) v =
          if 0 < p then ((some p : Option ℚ), if m < (p - v) / p then (p - v) / p else m)
          else ((some p : Option ℚ), m) := by
        simp [ddStep, hpv]
      rw [e]
      split_ifs with hp hm
      · exact (div_le_one hp).mpr (by linarith)
      · exact h1
      · exact h1

theorem dd_fold_nonneg (vs : List ℚ) :
    ∀ st : Option ℚ × ℚ, 0 ≤ st.2 → 0 ≤ (vs.foldl ddStep st).2 := by
  induction vs with
  | nil => exact fun _ h => h
  | cons v vs ih => exact fun st h => ih _ (le_trans h (ddStep_snd_ge st v))

theorem dd_fold_le_one (vs : List ℚ) :
    ∀ st : Option ℚ × ℚ, st.2 ≤ 1 → (∀ v ∈ vs, 0 ≤ v) → (vs.foldl ddStep st).2 ≤ 1 := by
  induction vs with
  | nil => exact fun _ h _ => h
  | cons v vs ih =>
    intro st h hv
    exact ih _ (ddStep_snd_le_one st v h (hv v (by simp))) (fun u hu => hv u (by simp [hu]))

/-- Claim C2 (amended): the output of `calculateMaxDrawdown` is always
non-negative, and lies in `[0, 100]` whenever every point's value is
non-negative.  (A point with negative value under a positive running peak
can push the result above 100.) -/
theorem maxDrawdown_bounds (chartData : List ChartDataPoint) :
    0 ≤ calculateMaxDrawdown chartData ∧
    ((∀ p ∈ chartData, 0 ≤ p.value) → calculateMaxDrawdown chartData ≤ 100) := by
  unfold calculateMaxDrawdown
  constructor
  · have h := dd_fold_nonneg (chartData.map (fun p => p.value)) (none, 0) (le_refl 0)
    linarith
  · intro hv
    have hall : ∀ v ∈ chartData.map (fun p => p.value), 0 ≤ v := by
      intro v hmem
      rcases List.mem_map.mp hmem with ⟨p, hp, rfl⟩
      exact hv p hp
    have h := dd_fold_le_one (chartData.map (fun p => p.value)) (none, 0) (by norm_num) hall
    linarith

/-- Valuations 100 then −50: the drawdown reported is 150, outside
`[0, 100]`. -/
def cexDD : List ChartDataPoint := [⟨CDate.now, 0, 100⟩, ⟨CDate.now, 0, -50⟩]

theorem c2_counterexample :
    calculateMaxDrawdown cexDD = 150 ∧ ¬ ((150 : ℚ) ≤ 100) := by
  constructor
  · simp [calculateMaxDrawdown, cexDD, ddStep]
    norm_num
  · norm_num

/-- Valuations 100 then 90 (all non-negative). -/
def wDD : List ChartDataPoint := [⟨CDate.now, 0, 100⟩, ⟨CDate.now, 0, 90⟩]

theorem c2_witness : 0 ≤ calculateMaxDrawdown wDD ∧ calculateMaxDrawdown wDD ≤ 100 :=
  ⟨(maxDrawdown_bounds wDD).1, (maxDrawdown_bounds wDD).2 (by norm_num [wDD])⟩

/-! ### Claims C5, C6, C10: the valuation timeline -/

/-- Statement-side vocabulary for C5/C10: the change a transaction makes
to net invested capital (positive for DEPOSIT, negative for WITHDRAW,
nothing for trades, dividends, and splits). -/
def investedDelta (t : Transaction) : ℚ :=
  match t.type with
  | TransactionType.DEPOSIT => t.price.getD 0
  | TransactionType.WITHDRAW => -(t.price.getD 0)
  | _ => 0

theorem historyStep_invested (st : PHState) (tx : Transaction) :
    (historyStep st tx).invested = st.invested + investedDelta tx := by
  have e : (historyStep st tx).invested =
      (if tx.type = TransactionType.DEPOSIT then st.invested + tx.price.getD 0
       else if tx.type = TransactionType.WITHDRAW then st.invested - tx.price.getD 0
       else st.invested) := by
    unfold historyStep
    rcases tx.symbol with _ | s
    · rfl
    · by_cases hs : s = "" <;> simp [hs]
  rw [e]
  unfold investedDelta
  cases h : tx.type <;> (simp [h]; try ring)

theorem scanl_eta (f : ℚ → Transaction → ℚ) (b : ℚ) (l : List Transaction) :
    List.scanl f b l = b :: (List.scanl f b l).drop 1 := by
  cases l <;> simp [List.scanl]

theorem runHistory_invested (l : List Transaction) :
    ∀ st : PHState,
      ((runHistory st l).2.map (fun p => p.invested) =
        (l.scanl (fun a t => a + investedDelta t) st.invested).drop 1) ∧
      (runHistory st l).1.invested =
        l.foldl (fun a t => a + investedDelta t) st.invested := by
  induction l with
  | nil => intro st; simp [runHistory]
  | cons tx rest ih =>
    intro st
    have hstep := historyStep_invested st tx
    rcases ih (historyStep st tx) with ⟨ih1, ih2⟩
    constructor
    · simp only [runHistory, List.map_cons, List.scanl_cons, List.drop_succ_cons,
        List.drop_zero]
      rw [ih1, hstep]
      exact (scanl_eta _ _ rest).symm
    · simp only [runHistory, List.foldl_cons]
      rw [ih2, hstep]

/-- Claim C5: in the valuation timeline, `invested` changes between
consecutive emitted points exactly by the funding delta of the
corresponding transaction — DEPOSIT adds the amount, WITHDRAW subtracts
it, and every BUY/SELL/DIVIDEND/SPLIT (and the trailing synthetic point)
leaves it unchanged: the `invested` column is precisely the running sums
of `investedDelta` over the sorted ledger, with the final value repeated
on the `'Now'` point. -/
theorem timeline_invested_only_funding (txs : List Transaction)
    (prices : String → ℚ) (hne : txs ≠ []) :
    (calculatePortfolioHistory txs prices).map (fun p => p.invested) =
      ((sortByDate txs).scanl (fun a t => a + investedDelta t) 0).drop 1 ++
        [(sortByDate txs).foldl (fun a t => a + investedDelta t) 0] := by
  unfold calculatePortfolioHistory
  rw [if_neg hne]
  rcases runHistory_invested (sortByDate txs) ⟨0, 0, []⟩ with ⟨h1, h2⟩
  simp only [List.map_append, List.map_cons, List.map_nil, h1]
  congr 1
  show [(nowPoint prices (runHistory ⟨0, 0, []⟩ (sortByDate txs)).1).invested] = _
  simp [nowPoint, h2]

/-- A deposit of 1000 on a later date. -/
def txDep : Transaction :=
  { id := "w5", date := ⟨2024, 1, 4⟩, type := TransactionType.DEPOSIT, price := some 1000 }

theorem c5_witness :
    [txBuyA, txDep] ≠ [] ∧
    (calculatePortfolioHistory [txBuyA, txDep] zeroPrices).map (fun p => p.invested) =
      ((sortByDate [txBuyA, txDep]).scanl (fun a t => a + investedDelta t) 0).drop 1 ++
        [(sortByDate [txBuyA, txDep]).foldl (fun a t => a + investedDelta t) 0] :=
  ⟨by decide, timeline_invested_only_funding [txBuyA, txDep] zeroPrices (by decide)⟩

theorem runHistory_dates (l : List Transaction) :
    ∀ st, (runHistory st l).2.map (fun p => p.date) = l.map (fun t => CDate.lit t.date) := by
  induction l with
  | nil => intro st; simp [runHistory]
  | cons tx rest ih => intro st; simp [runHistory, ih]

/-- Claim C6 (amended): for every NONEMPTY ledger, the timeline emits one
point per transaction in chronological (sorted) order followed by exactly
one trailing `'Now'` point valued with the supplied current prices
(falling back to the tracked last price when none is supplied), so its
length is the number of transactions plus one; the EMPTY ledger instead
yields the empty timeline. -/
theorem timeline_shape (txs : List Transaction) (prices : String → ℚ) (hne : txs ≠ []) :
    (calculatePortfolioHistory txs prices).map (fun p => p.date) =
      (sortByDate txs).map (fun t => CDate.lit t.date) ++ [CDate.now] ∧
    (calculatePortfolioHistory txs prices).length = txs.length + 1 ∧
    (calculatePortfolioHistory txs prices).getLast? =
      some (nowPoint prices (runHistory ⟨0, 0, []⟩ (sortByDate txs)).1) := by
  unfold calculatePortfolioHistory
  rw [if_neg hne]
  refine ⟨?_, ?_, ?_⟩
  · simp [runHistory_dates, nowPoint]
  · have hlen : (runHistory ⟨0, 0, []⟩ (sortByDate txs)).2.length = (sortByDate txs).length := by
      have hd := runHistory_dates (sortByDate txs) ⟨0, 0, []⟩
      calc (runHistory ⟨0, 0, []⟩ (sortByDate txs)).2.length
          = ((runHistory ⟨0, 0, []⟩ (sortByDate txs)).2.map (fun p => p.date)).length := by simp
        _ = (sortByDate txs).length := by rw [hd]; simp
    simp [hlen, (sortByDate_perm txs).length_eq]
  · simp

theorem c6_counterexample :
    calculatePortfolioHistory [] zeroPrices = [] ∧
    (calculatePortfolioHistory [] zeroPrices).length ≠ ([] : List Transaction).length + 1 := by
  exact ⟨rfl, by decide⟩

theorem c6_witness :
    [txBuyA, txDep] ≠ [] ∧
    ((calculatePortfolioHistory [txBuyA, txDep] zeroPrices).map (fun p => p.date) =
        (sortByDate [txBuyA, txDep]).map (fun t => CDate.lit t.date) ++ [CDate.now] ∧
      (calculatePortfolioHistory [txBuyA, txDep] zeroPrices).length =
        [txBuyA, txDep].length + 1 ∧
      (calculatePortfolioHistory [txBuyA, txDep] zeroPrices).getLast? =
        some (nowPoint zeroPrices (runHistory ⟨0, 0, []⟩ (sortByDate [txBuyA, txDep])).1)) :=
  ⟨by decide, timeline_shape [txBuyA, txDep] zeroPrices (by decide)⟩

/-- Statement-side vocabulary for C10: the funding delta as accumulated by
`calculateFundingStats` (amount added for DEPOSIT, subtracted
otherwise). -/
def fundingDelta (t : Transaction) : ℚ :=
  if t.type = TransactionType.DEPOSIT then t.price.getD 0 else -(t.price.getD 0)

theorem fundingStep_net (acc : FundingAcc) (tx : Transaction) :
    (fundingStep acc tx).netFundingUSD = acc.netFundingUSD + fundingDelta tx := by
  unfold fundingStep fundingDelta
  split_ifs <;> (simp; try ring)

theorem funding_fold_net (l : List Transaction) :
    ∀ acc : FundingAcc, (l.foldl fundingStep acc).netFundingUSD =
      acc.netFundingUSD + (l.map fundingDelta).sum := by
  induction l with
  | nil => intro acc; simp
  | cons t rest ih =>
    intro acc
    simp only [List.foldl_cons, List.map_cons, List.sum_cons]
    rw [ih, fundingStep_net]
    ring

theorem foldl_add_delta (l : List Transaction) :
    ∀ c : ℚ, l.foldl (fun a t => a + investedDelta t) c = c + (l.map investedDelta).sum := by
  induction l with
  | nil => intro c; simp
  | cons t rest ih =>
    intro c
    simp only [List.foldl_cons, List.map_cons, List.sum_cons]
    rw [ih]
    ring

theorem filter_funding_sum (txs : List Transaction) :
    ((txs.filter (fun t =>
      t.type == TransactionType.DEPOSIT || t.type == TransactionType.WITHDRAW)).map
        fundingDelta).sum = (txs.map investedDelta).sum := by
  induction txs with
  | nil => simp
  | cons t rest ih =>
    by_cases hp : (t.type == TransactionType.DEPOSIT || t.type == TransactionType.WITHDRAW) = true
    · have hagree : fundingDelta t = investedDelta t := by
        unfold fundingDelta investedDelta
        cases h : t.type <;> simp [h] <;> simp [h] at hp
      simp [List.filter_cons, hp, hagree, ih]
    · have hzero : investedDelta t = 0 := by
        unfold investedDelta
        cases h : t.type <;> simp [h] <;> simp [h] at hp
      simp [List.filter_cons, hp, hzero, ih]

/-- Claim C10: the two independent computations of net contributed capital
agree — the `invested` of the trailing `'Now'` point equals
`netFundingUSD` from `calculateFundingStats` (both are the sum of DEPOSIT
amounts minus WITHDRAW amounts, reading `price` as the amount with 0 for a
missing price). -/
theorem now_invested_eq_netFunding (txs : List Transaction) (prices : String → ℚ)
    (hne : txs ≠ []) :
    (calculatePortfolioHistory txs prices).getLast?.map (fun p => p.invested) =
      some (calculateFundingStats txs).netFundingUSD := by
  unfold calculatePortfolioHistory
  rw [if_neg hne]
  rw [List.getLast?_concat]
  simp only [Option.map_some']
  congr 1
  show (nowPoint prices (runHistory ⟨0, 0, []⟩ (sortByDate txs)).1).invested = _
  have h2 := (runHistory_invested (sortByDate txs) ⟨0, 0, []⟩).2
  calc (nowPoint prices (runHistory ⟨0, 0, []⟩ (sortByDate txs)).1).invested
      = (runHistory ⟨0, 0, []⟩ (sortByDate txs)).1.invested := rfl
    _ = (sortByDate txs).foldl (fun a t => a + investedDelta t) 0 := h2
    _ = 0 + ((sortByDate txs).map investedDelta).sum := foldl_add_delta _ 0
    _ = (txs.map investedDelta).sum := by
        rw [zero_add]
        exact ((sortByDate_perm txs).map investedDelta).sum_eq
    _ = ((txs.filter (fun t =>
          t.type == TransactionType.DEPOSIT || t.type == TransactionType.WITHDRAW)).map
            fundingDelta).sum := (filter_funding_sum txs).symm
    _ = (calculateFundingStats txs).netFundingUSD := by
        have e : (calculateFundingStats txs).netFundingUSD =
            ((txs.filter (fun t =>
              t.type == TransactionType.DEPOSIT || t.type == TransactionType.WITHDRAW)).foldl
                fundingStep ⟨0, 0, 0, 0⟩).netFundingUSD := rfl
        rw [e, funding_fold_net]
        simp

theorem c10_witness :
    [txBuyA, txDep] ≠ [] ∧
    (calculatePortfolioHistory [txBuyA, txDep] zeroPrices).getLast?.map
        (fun p => p.invested) =
      some (calculateFundingStats [txBuyA, txDep]).netFundingUSD :=
  ⟨by decide, now_invested_eq_netFunding [txBuyA, txDep] zeroPrices (by decide)⟩

/-! ### Claims C9 and C3: invariants of the holdings replay -/

theorem applyTx_symbol (h : Holding) (tx : Transaction) : (applyTx h tx).symbol = h.symbol := by
  unfold applyTx
  dsimp only
  split_ifs <;> rfl

/-- Branch equation: a BUY accumulates cost and shares and recomputes the
average cost by (unguarded) division. -/
theorem applyTx_buy (h : Holding) (tx : Transaction) (hty : tx.type = TransactionType.BUY) :
    applyTx h tx = { h with
      totalCost := h.totalCost.add
        (JsNum.fin (tx.price.getD 0 * tx.shares.getD 0 + tx.fee.getD 0)),
      shares := h.shares.add (JsNum.fin (tx.shares.getD 0)),
      avgCost := (h.totalCost.add
          (JsNum.fin (tx.price.getD 0 * tx.shares.getD 0 + tx.fee.getD 0))).div
        (h.shares.add (JsNum.fin (tx.shares.getD 0))) } := by
  simp [applyTx, hty]

/-- Branch equation: a SELL whose post-subtraction share count passes the
epsilon test clamps shares and totalCost to exactly 0. -/
theorem applyTx_sell_clamp (h : Holding) (tx : Transaction)
    (hty : tx.type = TransactionType.SELL)
    (hc : (h.shares.sub (JsNum.fin (tx.shares.getD 0))).ltb (JsNum.fin epsQ) = true) :
    applyTx h tx = { h with
      realizedPL := h.realizedPL.add
        ((JsNum.fin (tx.price.getD 0 * tx.shares.getD 0 - tx.fee.getD 0)).sub
          (h.avgCost.mul (JsNum.fin (tx.shares.getD 0)))),
      shares := JsNum.fin 0,
      totalCost := JsNum.fin 0 } := by
  simp [applyTx, hty, hc]

/-- Branch equation: a SELL that keeps at least epsilon shares subtracts
shares and cost basis. -/
theorem applyTx_sell_noclamp (h : Holding) (tx : Transaction)
    (hty : tx.type = TransactionType.SELL)
    (hc : ¬ (h.shares.sub (JsNum.fin (tx.shares.getD 0))).ltb (JsNum.fin epsQ) = true) :
    applyTx h tx = { h with
      realizedPL := h.realizedPL.add
        ((JsNum.fin (tx.price.getD 0 * tx.shares.getD 0 - tx.fee.getD 0)).sub
          (h.avgCost.mul (JsNum.fin (tx.shares.getD 0)))),
      shares := h.shares.sub (JsNum.fin (tx.shares.getD 0)),
      totalCost := h.totalCost.sub (h.avgCost.mul (JsNum.fin (tx.shares.getD 0))) } := by
  simp [applyTx, hty, hc]

/-- Branch equation: a DIVIDEND only adds to the dividend total. -/
theorem applyTx_dividend (h : Holding) (tx : Transaction)
    (hty : tx.type = TransactionType.DIVIDEND) :
    applyTx h tx = { h with
      totalDividends := h.totalDividends.add
        (JsNum.fin (tx.price.getD 0 - tx.fee.getD 0)) } := by
  simp [applyTx, hty]

/-- Branch equation: DEPOSIT and WITHDRAW leave the accumulator
unchanged. -/
theorem applyTx_deposit_withdraw (h : Holding) (tx : Transaction)
    (hty : tx.type = TransactionType.DEPOSIT ∨ tx.type = TransactionType.WITHDRAW) :
    applyTx h tx = h := by
  rcases hty with hty | hty <;> simp [applyTx, hty]

theorem applyTx_shares_nonneg (h : Holding) (tx : Transaction)
    (hh : ∃ q, h.shares = JsNum.fin q ∧ 0 ≤ q)
    (htx : (tx.type = TransactionType.BUY ∨ tx.type = TransactionType.SPLIT) →
      0 ≤ tx.shares.getD 0) :
    ∃ q, (applyTx h tx).shares = JsNum.fin q ∧ 0 ≤ q := by
  rcases hh with ⟨q, hq, hq0⟩
  cases hty : tx.type with
  | BUY =>
    have hsh : 0 ≤ tx.shares.getD 0 := htx (Or.inl hty)
    refine ⟨q + tx.shares.getD 0, ?_, by linarith⟩
    rw [applyTx_buy h tx hty]
    simp [hq, JsNum.add]
  | SELL =>
    by_cases hc : ((h.shares.sub (JsNum.fin (tx.shares.getD 0))).ltb (JsNum.fin epsQ)) = true
    · exact ⟨0, by rw [applyTx_sell_clamp h tx hty hc], le_refl 0⟩
    · refine ⟨q - tx.shares.getD 0, ?_, ?_⟩
      · rw [applyTx_sell_noclamp h tx hty hc]
        simp [hq, JsNum.sub, JsNum.neg, JsNum.add, sub_eq_add_neg]
      · rw [hq] at hc
        simp [JsNum.sub, JsNum.neg, JsNum.add, JsNum.ltb, epsQ] at hc
        have heps : (0 : ℚ) < 1 / 1000000 := by norm_num
        linarith [hc]
  | DIVIDEND =>
    refine ⟨q, ?_, hq0⟩
    rw [applyTx_dividend h tx hty]
    exact hq
  | SPLIT =>
    have hsh : 0 ≤ tx.shares.getD 0 := htx (Or.inr hty)
    by_cases hr : 0 < tx.shares.getD 0
    · refine ⟨q * tx.shares.getD 0, ?_, mul_nonneg hq0 hsh⟩
      rw [applyTx_split_pos h tx hty hr]
      show (h.shares.mul (JsNum.fin (tx.shares.getD 0))) = _
      rw [hq]
      simp [JsNum.mul]
    · exact ⟨q, by rw [applyTx_split_nonpos h tx hty hr, hq], hq0⟩
  | DEPOSIT => exact ⟨q, by rw [applyTx_deposit_withdraw h tx (Or.inl hty), hq], hq0⟩
  | WITHDRAW => exact ⟨q, by rw [applyTx_deposit_withdraw h tx (Or.inr hty), hq], hq0⟩

theorem holdingsStep_shares_nonneg (prices : String → ℚ) (m : List Holding)
    (tx : Transaction)
    (hm : ∀ h ∈ m, ∃ q, h.shares = JsNum.fin q ∧ 0 ≤ q)
    (htx : (tx.type = TransactionType.BUY ∨ tx.type = TransactionType.SPLIT) →
      0 ≤ tx.shares.getD 0) :
    ∀ h ∈ holdingsStep prices m tx, ∃ q, h.shares = JsNum.fin q ∧ 0 ≤ q := by
  unfold holdingsStep
  rcases hsym : tx.symbol with _ | s
  · exact hm
  · dsimp only
    by_cases hs : s = ""
    · simp only [if_pos hs]; exact hm
    · simp only [if_neg hs]
      intro h hmem
      rcases List.mem_map.mp hmem with ⟨h0, hm0, rfl⟩
      have hbase : ∃ q, h0.shares = JsNum.fin q ∧ 0 ≤ q := by
        by_cases hany : m.any (fun h => h.symbol == s) = true
        · rw [if_pos hany] at hm0
          exact hm h0 hm0
        · rw [if_neg hany] at hm0
          rcases List.mem_append.mp hm0 with hin | hnew
          · exact hm h0 hin
          · rcases List.mem_singleton.mp hnew with rfl
            exact ⟨0, rfl, le_refl 0⟩
      by_cases hsy : h0.symbol = s
      · rw [if_pos hsy]
        exact applyTx_shares_nonneg h0 tx hbase htx
      · rw [if_neg hsy]
        exact hbase

theorem replay_shares_nonneg (prices : String → ℚ) (l : List Transaction) :
    ∀ m : List Holding,
      (∀ h ∈ m, ∃ q, h.shares = JsNum.fin q ∧ 0 ≤ q) →
      (∀ t ∈ l, (t.type = TransactionType.BUY ∨ t.type = TransactionType.SPLIT) →
        0 ≤ t.shares.getD 0) →
      ∀ h ∈ l.foldl (holdingsStep prices) m, ∃ q, h.shares = JsNum.fin q ∧ 0 ≤ q := by
  induction l with
  | nil => intro m hm _; exact hm
  | cons t rest ih =>
    intro m hm htx
    simp only [List.foldl_cons]
    exact ih _ (holdingsStep_shares_nonneg prices m t hm (htx t (by simp)))
      (fun u hu => htx u (by simp [hu]))

/-- Claim C9: if every BUY and SPLIT in the ledger carries a non-negative
shares field, every Holding output by `calculateHoldings` has a
non-negative (finite) share count — even on oversell, thanks to the
epsilon clamp. -/
theorem holdings_shares_nonneg (txs : List Transaction) (prices targets : String → ℚ)
    (htx : ∀ t ∈ txs, (t.type = TransactionType.BUY ∨ t.type = TransactionType.SPLIT) →
      0 ≤ t.shares.getD 0) :
    ∀ h ∈ calculateHoldings txs prices targets, ∃ q, h.shares = JsNum.fin q ∧ 0 ≤ q := by
  intro h hmem
  unfold calculateHoldings at hmem
  have hmem2 := List.mem_of_mem_filter hmem
  rcases List.mem_map.mp hmem2 with ⟨h0, hm0, rfl⟩
  have hsorted : ∀ t ∈ sortByDate txs,
      (t.type = TransactionType.BUY ∨ t.type = TransactionType.SPLIT) →
        0 ≤ t.shares.getD 0 :=
    fun t ht => htx t ((sortByDate_perm txs).mem_iff.mp ht)
  have hrep := replay_shares_nonneg prices (sortByDate txs) [] (by simp) hsorted h0 hm0
  rcases hrep with ⟨q, hq, hq0⟩
  exact ⟨q, by simpa [finalizeHolding] using hq, hq0⟩

/-- Oversell: buy 5, sell 10. -/
def txBuy5 : Transaction :=
  { id := "w9a", date := ⟨2024, 1, 1⟩, type := TransactionType.BUY,
    symbol := some "B", shares := some 5, price := some 10, fee := some 0 }

def txSell10 : Transaction :=
  { id := "w9b", date := ⟨2024, 1, 2⟩, type := TransactionType.SELL,
    symbol := some "B", shares := some 10, price := some 10, fee := some 0 }

theorem c9_witness :
    (∀ t ∈ [txBuy5, txSell10],
      (t.type = TransactionType.BUY ∨ t.type = TransactionType.SPLIT) →
        0 ≤ t.shares.getD 0) ∧
    (∀ h ∈ calculateHoldings [txBuy5, txSell10] zeroPrices zeroTargets,
      ∃ q, h.shares = JsNum.fin q ∧ 0 ≤ q) := by
  have hyp : ∀ t ∈ [txBuy5, txSell10],
      (t.type = TransactionType.BUY ∨ t.type = TransactionType.SPLIT) →
        0 ≤ t.shares.getD 0 := by
    intro t ht _
    rcases List.mem_cons.mp ht with rfl | ht2
    · norm_num [txBuy5]
    · rcases List.mem_singleton.mp ht2 with rfl
      norm_num [txSell10]
  exact ⟨hyp, holdings_shares_nonneg [txBuy5, txSell10] zeroPrices zeroTargets hyp⟩

/-- Current share count tracked for a symbol (the accumulator's entry, or
0 when the symbol has not been seen). -/
def sharesOf (m : List Holding) (s : String) : JsNum :=
  match m.find? (fun h => h.symbol == s) with
  | some h => h.shares
  | none => JsNum.fin 0

theorem map_symbol_update (m : List Holding) (s : String) (tx : Transaction) :
    ((m.map (fun h => if h.symbol = s then applyTx h tx else h)).map (fun h => h.symbol)) =
      m.map (fun h => h.symbol) := by
  rw [List.map_map]
  apply List.map_congr_left
  intro h _
  by_cases hs : h.symbol = s
  · simp [hs, applyTx_symbol]
  · simp [hs]

theorem holdingsStep_nodup (prices : String → ℚ) (m : List Holding) (tx : Transaction)
    (hnd : (m.map (fun h => h.symbol)).Nodup) :
    ((holdingsStep prices m tx).map (fun h => h.symbol)).Nodup := by
  unfold holdingsStep
  rcases tx.symbol with _ | s
  · exact hnd
  · dsimp only
    by_cases hs : s = ""
    · simp only [if_pos hs]; exact hnd
    · simp only [if_neg hs]
      by_cases hany : m.any (fun h => h.symbol == s) = true
      · rw [if_pos hany, map_symbol_update]
        exact hnd
      · rw [if_neg hany, map_symbol_update]
        have hnotin : s ∉ m.map (fun h => h.symbol) := by
          intro hcon
          rcases List.mem_map.mp hcon with ⟨h0, hh0, hsy⟩
          exact hany (List.any_eq_true.mpr ⟨h0, hh0, by simp [hsy]⟩)
        rw [List.map_append]
        refine List.Nodup.append hnd (by simp [freshHolding]) ?_
        intro a ha hb
        simp only [List.map_cons, List.map_nil, freshHolding] at hb
        rcases List.mem_singleton.mp hb with rfl
        exact hnotin ha

theorem replay_nodup (prices : String → ℚ) (l : List Transaction) :
    ∀ m : List Holding, (m.map (fun h => h.symbol)).Nodup →
      ((l.foldl (holdingsStep prices) m).map (fun h => h.symbol)).Nodup := by
  induction l with
  | nil => exact fun m hm => hm
  | cons t rest ih =>
    intro m hm
    simp only [List.foldl_cons]
    exact ih _ (holdingsStep_nodup prices m t hm)

theorem find_symbol_unique (M : List Holding) (s : String)
    (hnd : (M.map (fun h => h.symbol)).Nodup) (h0 : Holding) (hm : h0 ∈ M)
    (hs : h0.symbol = s) : M.find? (fun h => h.symbol == s) = some h0 := by
  induction M with
  | nil => cases hm
  | cons a M ih =>
    rw [List.map_cons] at hnd
    rcases List.nodup_cons.mp hnd with ⟨hna, hndM⟩
    rcases List.mem_cons.mp hm with rfl | hm2
    · have hpos : (h0.symbol == s) = true := by simp [hs]
      simp only [List.find?, hpos]
    · have hne : (a.symbol == s) = false := by
        rw [beq_eq_false_iff_ne]
        intro hcc
        refine hna ?_
        rw [hcc, ← hs]
        exact List.mem_map.mpr ⟨h0, hm2, rfl⟩
      simp only [List.find?, hne]
      exact ih hndM hm2

theorem sharesOf_mem (M : List Holding) (s : String)
    (hnd : (M.map (fun h => h.symbol)).Nodup) (h0 : Holding) (hm : h0 ∈ M)
    (hs : h0.symbol = s) : sharesOf M s = h0.shares := by
  unfold sharesOf
  rw [find_symbol_unique M s hnd h0 hm hs]

/-- After a SELL that disposes of exactly the tracked share count, the
updated entry for the symbol is clamped to exactly zero shares and zero
cost. -/
theorem sell_all_step (prices : String → ℚ) (M : List Holding) (t : Transaction)
    (s : String) (hnd : (M.map (fun h => h.symbol)).Nodup)
    (hty : t.type = TransactionType.SELL) (hsym : t.symbol = some s) (hs : s ≠ "")
    (hex : JsNum.fin (t.shares.getD 0) = sharesOf M s) :
    ∀ h ∈ holdingsStep prices M t, h.symbol = s →
      h.shares = JsNum.fin 0 ∧ h.totalCost = JsNum.fin 0 := by
  intro h hmem hhs
  unfold holdingsStep at hmem
  rw [hsym] at hmem
  dsimp only at hmem
  rw [if_neg hs] at hmem
  rcases List.mem_map.mp hmem with ⟨h0, hm0, rfl⟩
  by_cases hsy : h0.symbol = s
  · rw [if_pos hsy]
    have hsh : h0.shares = JsNum.fin (t.shares.getD 0) := by
      by_cases hany : M.any (fun h => h.symbol == s) = true
      · rw [if_pos hany] at hm0
        rw [hex, sharesOf_mem M s hnd h0 hm0 hsy]
      · rw [if_neg hany] at hm0
        rcases List.mem_append.mp hm0 with hin | hnew
        · exact absurd (List.any_eq_true.mpr ⟨h0, hin, by simp [hsy]⟩) hany
        · rcases List.mem_singleton.mp hnew with rfl
          have hfind : M.find? (fun h => h.symbol == s) = none := by
            rw [List.find?_eq_none]
            intro x hx hcc
            exact hany (List.any_eq_true.mpr ⟨x, hx, hcc⟩)
          have hzero : sharesOf M s = JsNum.fin 0 := by unfold sharesOf; rw [hfind]
          rw [hzero] at hex
          have hsh0 : t.shares.getD 0 = 0 := JsNum.fin.inj hex
          show (freshHolding prices t s).shares = JsNum.fin (t.shares.getD 0)
          rw [hsh0]
          rfl
    have hc : (h0.shares.sub (JsNum.fin (t.shares.getD 0))).ltb (JsNum.fin epsQ) = true := by
      rw [hsh]
      simp [JsNum.sub, JsNum.neg, JsNum.add, JsNum.ltb, epsQ]
    rw [applyTx_sell_clamp h0 t hty hc]
    exact ⟨rfl, rfl⟩
  · rw [if_neg hsy] at hhs
    exact absurd hhs hsy

/-- Claim C3: (i) a SELL whose post-subtraction share count falls below
the epsilon 1e-6 leaves shares and totalCost exactly 0; and (ii) for
every ledger whose sorted form ends with a SELL disposing of exactly the
currently tracked share count of its symbol, every output Holding of that
symbol has shares = 0 and totalCost = 0 — no near-zero residue. -/
theorem sell_all_zero_residue :
    (∀ (h : Holding) (tx : Transaction), tx.type = TransactionType.SELL →
      (h.shares.sub (JsNum.fin (tx.shares.getD 0))).ltb (JsNum.fin epsQ) = true →
      (applyTx h tx).shares = JsNum.fin 0 ∧ (applyTx h tx).totalCost = JsNum.fin 0) ∧
    (∀ (txs : List Transaction) (prices targets : String → ℚ)
        (l1 : List Transaction) (t : Transaction) (s : String),
      sortByDate txs = l1 ++ [t] → t.type = TransactionType.SELL →
      t.symbol = some s → s ≠ "" →
      JsNum.fin (t.shares.getD 0) = sharesOf (replayHoldings prices l1) s →
      ∀ h ∈ calculateHoldings txs prices targets, h.symbol = s →
        h.shares = JsNum.fin 0 ∧ h.totalCost = JsNum.fin 0) := by
  constructor
  · intro h tx hty hc
    rw [applyTx_sell_clamp h tx hty hc]
    exact ⟨rfl, rfl⟩
  · intro txs prices targets l1 t s hsort hty hsym hs hex h hmem hhs
    unfold calculateHoldings at hmem
    have hmem2 := List.mem_of_mem_filter hmem
    rcases List.mem_map.mp hmem2 with ⟨h0, hm0, rfl⟩
    rw [hsort] at hm0
    unfold replayHoldings at hm0 hex
    rw [List.foldl_append, List.foldl_cons, List.foldl_nil] at hm0
    have hnd := replay_nodup prices l1 [] (by simp)
    have hsy0 : h0.symbol = s := by simpa [finalizeHolding] using hhs
    have hz := sell_all_step prices (l1.foldl (holdingsStep prices) []) t s hnd hty hsym hs
      hex h0 hm0 hsy0
    exact ⟨by simpa [finalizeHolding] using hz.1, by simpa [finalizeHolding] using hz.2⟩

/-- The SELL that disposes of all 10 AAPL shares of `c4H`. -/
def txSellAll : Transaction :=
  { id := "w3", date := ⟨2024, 1, 2⟩, type := TransactionType.SELL,
    symbol := some "AAPL", shares := some 10, price := some 120, fee := some 0 }

theorem c3_witness :
    txSellAll.type = TransactionType.SELL ∧
    (c4H.shares.sub (JsNum.fin (txSellAll.shares.getD 0))).ltb (JsNum.fin epsQ) = true ∧
    ((applyTx c4H txSellAll).shares = JsNum.fin 0 ∧
      (applyTx c4H txSellAll).totalCost = JsNum.fin 0) := by
  have hc : (c4H.shares.sub (JsNum.fin (txSellAll.shares.getD 0))).ltb (JsNum.fin epsQ) = true := by
    simp [c4H, applyTx, freshHolding, txBuyA, txSellAll, zeroPrices, JsNum.add, JsNum.sub,
      JsNum.neg, JsNum.ltb, epsQ]
  exact ⟨rfl, hc, sell_all_zero_residue.1 c4H txSellAll rfl hc⟩

/-! ### Claim C7: monthly Modified-Dietz returns -/

theorem insertP_perm (today : JDate) (p : ChartDataPoint) (l : List ChartDataPoint) :
    List.Perm (insertP today p l) (p :: l) := by
  induction l with
  | nil => simp [insertP]
  | cons q l ih =>
    simp only [insertP]
    split
    · exact ((ih.cons q).trans (List.Perm.swap p q l))
    · exact List.Perm.refl _

theorem sortP_perm (today : JDate) (l : List ChartDataPoint) :
    List.Perm (sortP today l) l := by
  induction l with
  | nil => simp [sortP]
  | cons p l ih => exact (insertP_perm today p (sortP today l)).trans (ih.cons p)

/-- No-inversion order maintained by the chart-data sort. -/
def dleP (today : JDate) (a b : ChartDataPoint) : Prop :=
  ¬ dateLt (resolveC today b.date) (resolveC today a.date)

theorem insertP_pairwise (today : JDate) (p : ChartDataPoint) {l : List ChartDataPoint}
    (h : l.Pairwise (dleP today)) : (insertP today p l).Pairwise (dleP today) := by
  induction l with
  | nil => simp [insertP, List.pairwise_cons]
  | cons q l ih =>
    rcases List.pairwise_cons.mp h with ⟨hq, hl⟩
    simp only [insertP]
    split
    case isTrue hlt =>
      refine List.pairwise_cons.mpr ⟨?_, ih hl⟩
      intro y hy
      rcases List.mem_cons.mp ((insertP_perm today p l).mem_iff.mp hy) with rfl | hyl
      · exact dateLt_asymm hlt
      · exact hq y hyl
    case isFalse hnlt =>
      refine List.pairwise_cons.mpr ⟨?_, h⟩
      intro y hy
      rcases List.mem_cons.mp hy with rfl | hyl
      · exact hnlt
      · exact dateLt_negtrans hnlt (hq y hyl)

theorem sortP_pairwise (today : JDate) (l : List ChartDataPoint) :
    (sortP today l).Pairwise (dleP today) := by
  induction l with
  | nil => simp [sortP]
  | cons p l ih => exact insertP_pairwise today p ih

/-- For a valid calendar date, being before the first day of month-number
`K` is exactly having a month number below `K`. -/
theorem dateLt_monthStart {d : JDate} (hv : validJD d) (K : ℕ) :
    dateLt d (monthStart K) ↔ monthIdx d < K := by
  obtain ⟨h1, h2, h3⟩ := hv
  unfold dateLt monthStart monthIdx
  dsimp only
  omega

theorem monthIdx_mono {a b : JDate} (hva : validJD a) (hvb : validJD b)
    (h : ¬ dateLt b a) : monthIdx a ≤ monthIdx b := by
  obtain ⟨ha1, ha2, ha3⟩ := hva
  obtain ⟨hb1, hb2, hb3⟩ := hvb
  unfold dateLt at h
  unfold monthIdx
  omega

theorem takeWhileCongr {α : Type} (p q : α → Bool) :
    ∀ l : List α, (∀ a ∈ l, p a = q a) → l.takeWhile p = l.takeWhile q := by
  intro l
  induction l with
  | nil => intro _; rfl
  | cons a l ih =>
    intro h
    have ha := h a (by simp)
    simp only [List.takeWhile_cons, ha]
    cases hq : q a
    · simp
    · simp [ih (fun b hb => h b (by simp [hb]))]

theorem dropWhileCongr {α : Type} (p q : α → Bool) :
    ∀ l : List α, (∀ a ∈ l, p a = q a) → l.dropWhile p = l.dropWhile q := by
  intro l
  induction l with
  | nil => intro _; rfl
  | cons a l ih =>
    intro h
    have ha := h a (by simp)
    simp only [List.dropWhile_cons, ha]
    cases hq : q a
    · simp
    · simp [ih (fun b hb => h b (by simp [hb]))]

/-- Over a list where the tested property only becomes false later
(downward closure along the list), `takeWhile` agrees with `filter`. -/
theorem takeWhile_eq_filter_aux {α : Type} (p : α → Bool) :
    ∀ l : List α, l.Pairwise (fun a b => p b = true → p a = true) →
      l.takeWhile p = l.filter p := by
  intro l
  induction l with
  | nil => intro _; rfl
  | cons a l ih =>
    intro hp
    rcases List.pairwise_cons.mp hp with ⟨ha, hl⟩
    cases hpa : p a
    · have hnil : l.filter p = [] := by
        refine List.filter_eq_nil_iff.mpr ?_
        intro b hb hpb
        have := ha b hb hpb
        rw [this] at hpa
        cases hpa
      simp [List.takeWhile_cons, List.filter_cons, hpa, hnil]
    · simp [List.takeWhile_cons, List.filter_cons, hpa, ih hl]

theorem dropWhile_eq_filter_aux {α : Type} (p : α → Bool) :
    ∀ l : List α, l.Pairwise (fun a b => p b = true → p a = true) →
      l.dropWhile p = l.filter (fun a => !(p a)) := by
  intro l
  induction l with
  | nil => intro _; rfl
  | cons a l ih =>
    intro hp
    rcases List.pairwise_cons.mp hp with ⟨ha, hl⟩
    cases hpa : p a
    · have hall : l.filter (fun a => !(p a)) = l := by
        refine List.filter_eq_self.mpr ?_
        intro b hb
        cases hpb : p b
        · rfl
        · have := ha b hb hpb
          rw [this] at hpa
          cases hpa
      simp [List.dropWhile_cons, List.filter_cons, hpa, hall]
    · simp [List.dropWhile_cons, List.filter_cons, hpa, ih hl]

/-- The month-cursor loop computes, for every month in its range, the
carried-forward state of the last sorted point dated in that month or
earlier (or its incoming state when no point is that early). -/
theorem snapLoop_eq (today : JDate) (fuel : ℕ) :
    ∀ (pts : List ChartDataPoint) (k : ℕ) (lastState : ℚ × ℚ),
      (∀ p ∈ pts, validJD (resolveC today p.date)) →
      pts.Pairwise (fun p q =>
        monthIdx (resolveC today p.date) ≤ monthIdx (resolveC today q.date)) →
      snapLoop today fuel pts k lastState =
        (List.range' k fuel).map (fun j => (j,
          match (pts.filter
              (fun p => decide (monthIdx (resolveC today p.date) ≤ j))).getLast? with
          | some p => (p.value, p.invested)
          | none => lastState)) := by
  induction fuel with
  | zero => intro pts k last _ _; simp [snapLoop]
  | succ n ih =>
    intro pts k last hv hmono
    have hcong : ∀ x ∈ pts,
        (decide (dateLt (resolveC today x.date) (monthStart (k + 1)))) =
          (decide (monthIdx (resolveC today x.date) ≤ k)) := by
      intro x hx
      apply decide_eq_decide.mpr
      rw [dateLt_monthStart (hv x hx) (k + 1)]
      omega
    have hdown : pts.Pairwise (fun a b =>
        decide (monthIdx (resolveC today b.date) ≤ k) = true →
        decide (monthIdx (resolveC today a.date) ≤ k) = true) := by
      refine hmono.imp ?_
      intro a b hab
      simp only [decide_eq_true_eq]
      omega
    have hTW : pts.takeWhile
        (fun p => decide (dateLt (resolveC today p.date) (monthStart (k + 1)))) =
        pts.filter (fun p => decide (monthIdx (resolveC today p.date) ≤ k)) := by
      rw [takeWhileCongr _ _ pts hcong]
      exact takeWhile_eq_filter_aux _ pts hdown
    have hDW : pts.dropWhile
        (fun p => decide (dateLt (resolveC today p.date) (monthStart (k + 1)))) =
        pts.filter (fun p => !(decide (monthIdx (resolveC today p.date) ≤ k))) := by
      rw [dropWhileCongr _ _ pts hcong]
      exact dropWhile_eq_filter_aux _ pts hdown
    have hvB : ∀ p ∈ pts.filter
        (fun p => !(decide (monthIdx (resolveC today p.date) ≤ k))),
        validJD (resolveC today p.date) :=
      fun p hp => hv p (List.mem_of_mem_filter hp)
    have hmonoB : (pts.filter
        (fun p => !(decide (monthIdx (resolveC today p.date) ≤ k)))).Pairwise
          (fun p q => monthIdx (resolveC today p.date) ≤ monthIdx (resolveC today q.date)) :=
      hmono.sublist (List.filter_sublist pts)
    rw [List.range'_succ]
    simp only [snapLoop, List.map_cons]
    rw [hTW, hDW]
    congr 1
    rw [ih _ (k + 1) _ hvB hmonoB]
    apply List.map_congr_left
    intro j hj
    have hjk : k + 1 ≤ j := by
      rcases List.mem_range'.mp hj with ⟨i, hi, rfl⟩
      omega
    have hsum : pts =
        (pts.filter (fun p => decide (monthIdx (resolveC today p.date) ≤ k))) ++
          (pts.filter (fun p => !(decide (monthIdx (resolveC today p.date) ≤ k)))) := by
      rw [← hTW, ← hDW, List.takeWhile_append_dropWhile]
    have hsplit : pts.filter (fun p => decide (monthIdx (resolveC today p.date) ≤ j)) =
        (pts.filter (fun p => decide (monthIdx (resolveC today p.date) ≤ k))) ++
          ((pts.filter (fun p => !(decide (monthIdx (resolveC today p.date) ≤ k)))).filter
            (fun p => decide (monthIdx (resolveC today p.date) ≤ j))) := by
      conv_lhs => rw [hsum]
      rw [List.filter_append]
      congr 1
      refine List.filter_eq_self.mpr ?_
      intro a ha
      have hak := (List.mem_filter.mp ha).2
      simp only [decide_eq_true_eq] at hak ⊢
      omega
    rw [hsplit]
    cases hD : ((pts.filter
        (fun p => !(decide (monthIdx (resolveC today p.date) ≤ k)))).filter
          (fun p => decide (monthIdx (resolveC today p.date) ≤ j))).getLast? with
    | some pp =>
      have hne : ((pts.filter
          (fun p => !(decide (monthIdx (resolveC today p.date) ≤ k)))).filter
            (fun p => decide (monthIdx (resolveC today p.date) ≤ j))) ≠ [] := by
        intro hnil
        rw [hnil] at hD
        cases hD
      rw [List.getLast?_append_of_ne_nil _ hne, hD]
    | none =>
      have hnil := List.getLast?_eq_none_iff.mp hD
      rw [hnil, List.append_nil]

/-- The returns loop is the pairwise Modified-Dietz map over consecutive
snapshots (with the zero state prepended). -/
theorem returnsLoop_eq (snaps : List (ℕ × ℚ × ℚ)) :
    ∀ prev : ℚ × ℚ, returnsLoop prev snaps =
      (List.zip (prev :: snaps.map Prod.snd) snaps).filterMap
        (fun pr => dietzSpec pr.1 pr.2) := by
  induction snaps with
  | nil => intro prev; simp [returnsLoop]
  | cons e rest ih =>
    intro prev
    rcases e with ⟨ym, st⟩
    simp only [returnsLoop, List.map_cons, List.zip_cons_cons, List.filterMap_cons]
    rw [ih st]
    by_cases hcond : (prev.1 + (st.2 - prev.2) / 2 ≠ 0 ∨ st.1 - prev.1 - (st.2 - prev.2) ≠ 0)
    · simp [dietzSpec, hcond]
    · simp [dietzSpec, hcond]

/-- Claim C7: `calculateMonthlyReturns` builds one snapshot per calendar
month spanning the timeline's first to last date, carrying forward the
last known `{value, invested}` for months without a point in them, and
for each month computes `netFlow = invested − prevInvested`,
`pnl = value − prevValue − netFlow`, `denominator = prevValue + netFlow/2`
and a return of `(pnl/denominator)·100` (0 when the denominator is 0),
emitting no entry for the months where denominator and pnl are both
exactly 0 — that is, it agrees with the month-by-month description
`monthlyReturnsSpec` on every timeline of well-formed calendar dates. -/
theorem monthlyReturns_eq_spec (today : JDate) (chartData : List ChartDataPoint)
    (hv : ∀ p ∈ chartData, validJD (resolveC today p.date)) :
    calculateMonthlyReturns today chartData = monthlyReturnsSpec today chartData := by
  unfold calculateMonthlyReturns monthlyReturnsSpec
  cases hsorted : sortP today chartData with
  | nil => rfl
  | cons p rest =>
    have hvs : ∀ x ∈ p :: rest, validJD (resolveC today x.date) := by
      intro x hx
      exact hv x ((sortP_perm today chartData).mem_iff.mp (hsorted ▸ hx))
    have hpair : (p :: rest).Pairwise (dleP today) :=
      hsorted ▸ sortP_pairwise today chartData
    have hmono : (p :: rest).Pairwise (fun a b =>
        monthIdx (resolveC today a.date) ≤ monthIdx (resolveC today b.date)) := by
      refine hpair.imp_of_mem ?_
      intro a b ha hb hab
      exact monthIdx_mono (hvs a ha) (hvs b hb) hab
    dsimp only
    rw [snapLoop_eq today _ (p :: rest) _ (0, 0) hvs hmono, returnsLoop_eq]
    rfl

/-- The claim's worked example: value 1000/invested 1000 in mid-January,
value 1100/invested 1000 in mid-February. -/
def cdEx : List ChartDataPoint :=
  [⟨CDate.lit ⟨2024, 1, 15⟩, 1000, 1000⟩, ⟨CDate.lit ⟨2024, 2, 20⟩, 1000, 1100⟩]

/-- The current date used to resolve `'Now'` in the example (it contains
no `'Now'` point, so any valid date works). -/
def todayEx : JDate := ⟨2024, 3, 1⟩

theorem c7_witness :
    (∀ p ∈ cdEx, validJD (resolveC todayEx p.date)) ∧
    calculateMonthlyReturns todayEx cdEx = monthlyReturnsSpec todayEx cdEx ∧
    calculateMonthlyReturns todayEx cdEx = [⟨24288, 0, 0⟩, ⟨24289, 10, 100⟩] := by
  have hv : ∀ p ∈ cdEx, validJD (resolveC todayEx p.date) := by decide
  refine ⟨hv, monthlyReturns_eq_spec todayEx cdEx hv, ?_⟩
  simp [calculateMonthlyReturns, cdEx, todayEx, sortP, insertP, resolveC, dateLt,
    snapLoop, returnsLoop, monthIdx, monthStart, List.takeWhile, List.dropWhile]
  norm_num
